import Mathlib

/-!
Verification of the waveform-thumbnail renderer (src/main.rs).

Shallow embedding conventions:
* Rust `f64` arithmetic is modelled by exact rational arithmetic (`ℚ`);
  every floating-point expression the renderer evaluates stays well within
  the range where `f64` behaves like the reals for the small integer inputs
  involved, and the claims under study are stated over real arithmetic.
* `usize` values are modelled by `ℕ` (64-bit overflow is not reachable for
  representable inputs); `u32` values are modelled by `ℕ` together with the
  explicit casts the source performs (`saturating_cast`, i.e. `min · (2^32-1)`,
  and `as u32`, i.e. `% 2^32`); `u32` multiplication inside `upscale_image`
  wraps, modelled by an explicit `% 2^32`.
* Code paths that panic in Rust (slice out of bounds, division by zero,
  `Option::unwrap` on `None`) are modelled by `Option.none` / an explicit
  result constructor.
* Strings are modelled as lists of ASCII characters (one byte per char).
-/

/-- Pixel color: an RGB triple of byte values, `image::Rgb<u8>`. -/
abbrev Color : Type := ℕ × ℕ × ℕ

/-- `fn scale_to_range<T: Float>(value, in_begin, in_end, out_begin, out_end)`:
`out_begin + (value - in_begin) / (in_end - in_begin) * (out_end - out_begin)`. -/
def scale_to_range (value in_begin in_end out_begin out_end : ℚ) : ℚ :=
  out_begin + (value - in_begin) / (in_end - in_begin) * (out_end - out_begin)

/-- `num::clamp(input, min, max)`: `if input < min { min } else if input > max { max } else { input }`. -/
def clamp (input lo hi : ℚ) : ℚ :=
  if input < lo then lo else if hi < input then hi else input

/-- `fn clamp_scale(...)`: `clamp(scale_to_range(...), out_begin, out_end)`. -/
def clamp_scale (value in_begin in_end out_begin out_end : ℚ) : ℚ :=
  clamp (scale_to_range value in_begin in_end out_begin out_end) out_begin out_end

/-- `f64::round`: rounds half-way cases away from zero. -/
def roundq (q : ℚ) : ℤ :=
  if 0 ≤ q then ⌊q + 1 / 2⌋ else ⌈q - 1 / 2⌉

/-- `fn saturating_cast(value: usize) -> u32`: `value.try_into().unwrap_or(u32::MAX)`. -/
def satCast (n : ℕ) : ℕ := min n (2 ^ 32 - 1)

/-- `image::RgbImage`: a pixel grid with fixed dimensions.  The pixel store is
modelled as a total function from coordinates to colors; coordinates outside
`width × height` are irrelevant to every claim. -/
structure Image where
  width : ℕ
  height : ℕ
  pix : ℕ → ℕ → Color

/-- `RgbImage::new(w, h)`: an image whose pixels are all zero-initialised
(`Rgb([0, 0, 0])`). -/
def Image.new (w h : ℕ) : Image := ⟨w, h, fun _ _ => (0, 0, 0)⟩

/-- `RgbImage::put_pixel(x, y, c)` (in-bounds case; all writes the renderer
performs are in bounds). -/
def Image.putPixel (img : Image) (x y : ℕ) (c : Color) : Image :=
  ⟨img.width, img.height, fun a b => if a = x ∧ b = y then c else img.pix a b⟩

/-- The inner loop of `upscale_image` for one output row:
`for column in 0..output_image.width() { let pi = column * image.width() / output_image.width(); ... }`.
The `u32` product `column * image.width()` wraps on overflow (release-profile
semantics), hence the explicit `% 2^32`. -/
def upscaleRow (img : Image) (new_width row : ℕ) (acc : Image) : Image :=
  (List.range new_width).foldl
    (fun im2 column => im2.putPixel column row (img.pix (column * img.width % 2 ^ 32 / new_width) row))
    acc

/-- `fn upscale_image(image: &RgbImage, new_width: u32) -> RgbImage`:
nearest-neighbour horizontal resize into a fresh `new_width × image.height()` image. -/
def upscale_image (img : Image) (new_width : ℕ) : Image :=
  (List.range img.height).foldl
    (fun acc row => upscaleRow img new_width row acc)
    (Image.new new_width img.height)

/-- `struct Wave<T>`: a borrowed flat interleaved sample buffer plus a channel
count.  Samples are modelled as `ℤ` (the source is generic over a bounded signed
integer type; the binary's instantiation is `i16`). -/
structure Wave where
  data : List ℤ
  channel_count : ℕ

/-- `Wave::frame_count`: `data.len() / channel_count` (the `assert!` about
divisibility is modelled as a guard in `render_raw`). -/
def Wave.frameCount (w : Wave) : ℕ := w.data.length / w.channel_count

/-- `Wave::sample_count`: `data.len()`. -/
def Wave.sampleCount (w : Wave) : ℕ := w.data.length

/-- The render-resolution width chosen by `draw_waveform`:
`frame_count` for a small wave (`frame_count < width`), else `width`,
saturating-cast to `u32` as `RgbImage::new` receives it. -/
def renderWidth (width : ℕ) (wave : Wave) : ℕ :=
  if wave.frameCount < width then satCast wave.frameCount else satCast width

/-- `samples_per_pixel = wave.sample_count() / image.width()`. -/
def sppOf (width : ℕ) (wave : Wave) : ℕ :=
  wave.sampleCount / renderWidth width wave

/-- The sample slice `wave.data[sp..sp + spp]`. -/
def window (data : List ℤ) (sp spp : ℕ) : List ℤ := (data.drop sp).take spp

/-- `Iterator::max` over a slice: `None` on an empty slice, else the maximum. -/
def listMax : List ℤ → Option ℤ
  | [] => none
  | a :: as => some (as.foldl max a)

/-- `Iterator::min` over a slice. -/
def listMin : List ℤ → Option ℤ
  | [] => none
  | a :: as => some (as.foldl min a)

/-- The per-column window maximum `*wave.data[sp..sp+spp].iter().max().unwrap()`.
The `unwrap` is total here because `render_raw` only evaluates it when
`spp ≥ 1`, which makes every window non-empty; the `getD 0` default is
unreachable in that flow. -/
def columnMax (wave : Wave) (spp column : ℕ) : ℤ :=
  (listMax (window wave.data (column * spp) spp)).getD 0

/-- The per-column window minimum (same totalisation remark as `columnMax`). -/
def columnMin (wave : Wave) (spp column : ℕ) : ℤ :=
  (listMin (window wave.data (column * spp) spp)).getD 0

/-- `top_pixel`: `clamp_scale(max, 0., SampleType::max_value(), h/2., h).round().to_u32().unwrap()`
with `h = image.height()`.  The clamp guarantees the rounded value is a
non-negative integer ≤ `h < 2^32`, so `to_u32().unwrap()` is `Int.toNat`. -/
def top_pixel (ih : ℕ) (smax mx : ℤ) : ℕ :=
  (roundq (clamp_scale (mx : ℚ) 0 (smax : ℚ) ((ih : ℚ) / 2) (ih : ℚ))).toNat

/-- `bottom_pixel`: `clamp_scale(min, SampleType::min_value(), 0., 0., h/2.).round().to_u32().unwrap()`. -/
def bottom_pixel (ih : ℕ) (smin mn : ℤ) : ℕ :=
  (roundq (clamp_scale (mn : ℚ) (smin : ℚ) 0 0 ((ih : ℚ) / 2))).toNat

/-- One bounded row loop `for row in a..b { image.put_pixel(c, row, color) }`,
recursing on the iteration count `b - a`. -/
def rowsGo (c : ℕ) (color : Color) : ℕ → ℕ → Image → Image
  | _, 0, img => img
  | a, n + 1, img => rowsGo c color (a + 1) n (img.putPixel c a color)

/-- `for row in a..b { image.put_pixel(c, row, color) }`. -/
def paintRows (img : Image) (c a b : ℕ) (color : Color) : Image :=
  rowsGo c color a (b - a) img

/-- The three row loops of `draw_waveform` for one column:
background `[0, bottom)`, foreground `[bottom, top)`, background `[top, height)`. -/
def paintColumn (img : Image) (c bottom top ih : ℕ) (fg bg : Color) : Image :=
  paintRows (paintRows (paintRows img c 0 bottom bg) c bottom top fg) c top ih bg

/-- One iteration of the column loop of `draw_waveform`: compute the window
extrema, map them to pixel rows, paint the column. -/
def paintStep (wave : Wave) (spp ih : ℕ) (smin smax : ℤ) (fg bg : Color)
    (im : Image) (column : ℕ) : Image :=
  paintColumn im column
    (bottom_pixel ih smin (columnMin wave spp column))
    (top_pixel ih smax (columnMax wave spp column))
    ih fg bg

/-- The color `draw_waveform` leaves at `(x, y)` of the pre-upscale image. -/
def columnColor (wave : Wave) (spp ih : ℕ) (smin smax : ℤ) (fg bg : Color)
    (x y : ℕ) : Color :=
  if bottom_pixel ih smin (columnMin wave spp x) ≤ y ∧
      y < top_pixel ih smax (columnMax wave spp x) then fg else bg

/-- The body of `draw_waveform` up to (but not including) the final upscale.
`none` models a panic:
* `channel_count = 0` or non-divisibility: the `assert!`/`%` in `frame_count()`;
* render width 0: the division `sample_count / image.width()` divides by zero;
* `samples_per_pixel = 0`: the first column's `.max().unwrap()` is on an empty
  slice and unwraps `None`. -/
def render_raw (width height : ℕ) (smin smax : ℤ) (wave : Wave) (fg bg : Color) :
    Option Image :=
  if wave.channel_count = 0 ∨ wave.data.length % wave.channel_count ≠ 0 then none
  else if renderWidth width wave = 0 then none
  else if sppOf width wave = 0 then none
  else some ((List.range (renderWidth width wave)).foldl
    (paintStep wave (sppOf width wave) (satCast height) smin smax fg bg)
    (Image.new (renderWidth width wave) (satCast height)))

/-- `fn draw_waveform(width, height, wave, fg_color, bg_color) -> RgbImage`:
render at native or target resolution, then for a small wave upscale to
`width as u32` (a truncating cast, hence `% 2^32`). -/
def draw_waveform (width height : ℕ) (smin smax : ℤ) (wave : Wave) (fg bg : Color) :
    Option Image :=
  (render_raw width height smin smax wave fg bg).map
    (fun img => if wave.frameCount < width then upscale_image img (width % 2 ^ 32) else img)

/-- Result of `parse_hex_color`: `oob` models the panic raised by an
out-of-bounds byte slice (`&hex_color[1..]`, `&hex[0..2]`, `&hex[2..4]`,
`&hex[4..6]`), `err` a returned `ParseIntError`, `ok` a returned color. -/
inductive HexResult where
  | oob : HexResult
  | err : HexResult
  | ok : Color → HexResult
deriving DecidableEq

/-- `char::to_digit(16)`: value of one hexadecimal digit. -/
def hexDigitVal (c : Char) : Option ℕ :=
  if '0' ≤ c ∧ c ≤ '9' then some (c.toNat - 48)
  else if 'a' ≤ c ∧ c ≤ 'f' then some (c.toNat - 87)
  else if 'A' ≤ c ∧ c ≤ 'F' then some (c.toNat - 55)
  else none

/-- `u8::from_str_radix(s, 16)` on a two-character slice: an optional leading
`+` sign followed by hex digits.  A `-` sign is accepted only for signed
integer types; for `u8` it is rejected like any other non-digit
(`Err(InvalidDigit)`). -/
def hexByte (a b : Char) : Option ℕ :=
  match hexDigitVal a, hexDigitVal b with
  | some va, some vb => some (16 * va + vb)
  | none, some vb => if a = '+' then some vb else none
  | _, _ => none

/-- `fn parse_hex_color` after `let hex = &hex_color[1..]`: slice two characters
(panic if too short), parse them (`?` returns the error), three times. -/
def parseHexBody (hex : List Char) : HexResult :=
  match hex with
  | c1 :: c2 :: rest2 =>
    match hexByte c1 c2 with
    | none => .err
    | some r =>
      match rest2 with
      | c3 :: c4 :: rest4 =>
        match hexByte c3 c4 with
        | none => .err
        | some g =>
          match rest4 with
          | c5 :: c6 :: _ =>
            match hexByte c5 c6 with
            | none => .err
            | some b => .ok (r, g, b)
          | _ => .oob
      | _ => .oob
  | _ => .oob

/-- `fn parse_hex_color(hex_color: &str) -> Result<Color, ParseIntError>`:
drops the first character unchecked (`&hex_color[1..]`, which panics on an
empty string), then parses three two-digit bytes. -/
def parseHexColor (s : List Char) : HexResult :=
  match s with
  | [] => .oob
  | _ :: hex => parseHexBody hex

/-- Source image for the C3 counterexample: 65536 pixels wide, one row,
with pairwise distinguishable column colors. -/
def c3src : Image := ⟨65536, 1, fun x _ => (x / 256, x % 256, 0)⟩

/-- Source image for the C3 witness: the spec's 2-pixel-wide example. -/
def c3small : Image := ⟨2, 1, fun x _ => (x, 0, 0)⟩

/-- Concrete rendered image for the C5 witness: a silent mono wave, 1×2 target. -/
def c5img : Image :=
  (render_raw 1 2 (-32768) 32767 ⟨[0], 1⟩ (0, 0, 0) (255, 255, 255)).getD (Image.new 0 0)

/-- Concrete rendered image for the C6 witness: a full-scale mono wave, 1×2 target. -/
def c6img : Image :=
  (render_raw 1 2 (-32768) 32767 ⟨[32767], 1⟩ (0, 0, 0) (255, 255, 255)).getD (Image.new 0 0)

/-- Concrete rendered image for the C6 counterexample: a full-scale mono wave,
1×1 target. -/
def c6cexImg : Image :=
  (render_raw 1 1 (-32768) 32767 ⟨[32767], 1⟩ (0, 0, 0) (255, 255, 255)).getD (Image.new 0 0)

section RangeMapperLemmas

theorem clamp_mem (input lo hi : ℚ) (h : lo ≤ hi) :
    lo ≤ clamp input lo hi ∧ clamp input lo hi ≤ hi := by
  unfold clamp
  split_ifs with h1 h2 <;> constructor <;> linarith

theorem clamp_le_hi (input lo hi : ℚ) (h : lo ≤ hi) : clamp input lo hi ≤ hi :=
  (clamp_mem input lo hi h).2

theorem lo_le_clamp (input lo hi : ℚ) (h : lo ≤ hi) : lo ≤ clamp input lo hi :=
  (clamp_mem input lo hi h).1

theorem clamp_eq_hi (input lo hi : ℚ) (hlo : lo ≤ input) (hhi : hi ≤ input) :
    clamp input lo hi = hi := by
  unfold clamp
  split_ifs with h1 h2
  · linarith
  · rfl
  · linarith

theorem clamp_eq_of_mem (input lo hi : ℚ) (hlo : lo ≤ input) (hhi : input ≤ hi) :
    clamp input lo hi = input := by
  unfold clamp
  split_ifs with h1 h2
  · linarith
  · linarith
  · rfl

theorem roundq_mono {a b : ℚ} (h : a ≤ b) : roundq a ≤ roundq b := by
  unfold roundq
  split_ifs with ha hb
  · exact Int.floor_le_floor (by linarith)
  · linarith
  · have h1 : (⌈a - 1 / 2⌉ : ℤ) ≤ 0 := by
      apply Int.ceil_le.mpr
      push_cast
      linarith
    have h2 : (0 : ℤ) ≤ ⌊b + 1 / 2⌋ := by
      apply Int.le_floor.mpr
      push_cast
      linarith
    omega
  · exact Int.ceil_le_ceil (by linarith)

theorem roundq_natCast (n : ℕ) : roundq (n : ℚ) = n := by
  unfold roundq
  rw [if_pos (by positivity)]
  rw [Int.floor_eq_iff]
  push_cast
  constructor <;> linarith

/-- Rounding the exact value `n/2` (half away from zero) gives `(n+1)/2` by
integer division; for even `n` this is `n/2`. -/
theorem roundq_nat_half (n : ℕ) : (roundq ((n : ℚ) / 2)).toNat = (n + 1) / 2 := by
  set k := (n + 1) / 2 with hk
  have hk1 : 2 * k ≤ n + 1 := by omega
  have hk2 : n + 1 < 2 * k + 2 := by omega
  have : roundq ((n : ℚ) / 2) = ((k : ℕ) : ℤ) := by
    unfold roundq
    rw [if_pos (by positivity), Int.floor_eq_iff]
    constructor
    · have hc : ((2 * k : ℕ) : ℚ) ≤ ((n + 1 : ℕ) : ℚ) := Nat.cast_le.mpr hk1
      push_cast at hc ⊢
      linarith
    · have hc : ((n + 1 : ℕ) : ℚ) < ((2 * k + 2 : ℕ) : ℚ) := Nat.cast_lt.mpr hk2
      push_cast at hc ⊢
      linarith
  rw [this]
  exact Int.toNat_natCast _

end RangeMapperLemmas

/-- C4: for every input value (including values far outside `[in_begin, in_end]`)
and every domain with `in_end ≠ in_begin` and `out_begin ≤ out_end`, the result of
`clamp_scale` lies within `[out_begin, out_end]` inclusive. -/
theorem clamp_scale_within_range (value in_begin in_end out_begin out_end : ℚ)
    (hin : in_end ≠ in_begin) (hout : out_begin ≤ out_end) :
    out_begin ≤ clamp_scale value in_begin in_end out_begin out_end ∧
      clamp_scale value in_begin in_end out_begin out_end ≤ out_end :=
  clamp_mem _ _ _ hout

/-- C4 witness: an input far outside the input domain still lands inside the
output range. -/
theorem clamp_scale_within_range_witness :
    (2 : ℚ) ≤ clamp_scale 1000000 0 1 2 3 ∧ clamp_scale 1000000 0 1 2 3 ≤ 3 :=
  clamp_scale_within_range 1000000 0 1 2 3 (by norm_num) (by norm_num)

/-- C7: `scale_to_range` maps `in_begin` to `out_begin`, `in_end` to `out_end`,
and is affine in between: the point at parameter `t` along the input segment
is mapped to the point at parameter `t` along the output segment. -/
theorem scale_to_range_affine (in_begin in_end out_begin out_end : ℚ)
    (h : in_end ≠ in_begin) :
    scale_to_range in_begin in_begin in_end out_begin out_end = out_begin ∧
      scale_to_range in_end in_begin in_end out_begin out_end = out_end ∧
      ∀ t : ℚ, scale_to_range (in_begin + t * (in_end - in_begin))
          in_begin in_end out_begin out_end = out_begin + t * (out_end - out_begin) := by
  have hne : in_end - in_begin ≠ 0 := sub_ne_zero.mpr h
  refine ⟨?_, ?_, ?_⟩
  · unfold scale_to_range
    rw [sub_self, zero_div, zero_mul, add_zero]
  · unfold scale_to_range
    rw [div_self hne, one_mul]
    ring
  · intro t
    unfold scale_to_range
    rw [add_sub_cancel_left, mul_div_assoc, div_self hne, mul_one]

/-- C7 witness: concrete endpoints and an interior point. -/
theorem scale_to_range_affine_witness :
    scale_to_range 1 1 3 10 20 = 10 ∧ scale_to_range 3 1 3 10 20 = 20 ∧
      scale_to_range (1 + (1 / 2) * (3 - 1)) 1 3 10 20 = 10 + (1 / 2) * (20 - 10) := by
  have h := scale_to_range_affine 1 3 10 20 (by norm_num)
  exact ⟨h.1, h.2.1, h.2.2 (1 / 2)⟩

section ImageLemmas

theorem putPixel_pix (im : Image) (px py : ℕ) (c : Color) (x y : ℕ) :
    (im.putPixel px py c).pix x y = if x = px ∧ y = py then c else im.pix x y := rfl

theorem foldl_width {α : Type} (f : Image → α → Image)
    (hf : ∀ im a, (f im a).width = im.width) :
    ∀ (l : List α) (img : Image), (l.foldl f img).width = img.width := by
  intro l
  induction l with
  | nil => intro img; rfl
  | cons a t ih => intro img; rw [List.foldl_cons, ih, hf]

theorem foldl_height {α : Type} (f : Image → α → Image)
    (hf : ∀ im a, (f im a).height = im.height) :
    ∀ (l : List α) (img : Image), (l.foldl f img).height = img.height := by
  intro l
  induction l with
  | nil => intro img; rfl
  | cons a t ih => intro img; rw [List.foldl_cons, ih, hf]

theorem rowsGo_pix (c : ℕ) (color : Color) :
    ∀ (n a : ℕ) (img : Image) (x y : ℕ),
      (rowsGo c color a n img).pix x y =
        if x = c ∧ a ≤ y ∧ y < a + n then color else img.pix x y := by
  intro n
  induction n with
  | zero =>
    intro a img x y
    simp only [rowsGo]
    rw [if_neg (by omega)]
  | succ n ihn =>
    intro a img x y
    simp only [rowsGo]
    rw [ihn, putPixel_pix]
    split_ifs <;> first | rfl | omega

theorem rowsGo_width (c : ℕ) (color : Color) :
    ∀ (n a : ℕ) (img : Image), (rowsGo c color a n img).width = img.width := by
  intro n
  induction n with
  | zero => intro a img; simp only [rowsGo]
  | succ n ihn => intro a img; simp only [rowsGo]; rw [ihn]; rfl

theorem rowsGo_height (c : ℕ) (color : Color) :
    ∀ (n a : ℕ) (img : Image), (rowsGo c color a n img).height = img.height := by
  intro n
  induction n with
  | zero => intro a img; simp only [rowsGo]
  | succ n ihn => intro a img; simp only [rowsGo]; rw [ihn]; rfl

theorem paintRows_pix (img : Image) (c a b : ℕ) (color : Color) (x y : ℕ) :
    (paintRows img c a b color).pix x y =
      if x = c ∧ a ≤ y ∧ y < b then color else img.pix x y := by
  unfold paintRows
  rw [rowsGo_pix]
  split_ifs <;> first | rfl | omega

theorem paintRows_width (img : Image) (c a b : ℕ) (color : Color) :
    (paintRows img c a b color).width = img.width := rowsGo_width c color _ a img

theorem paintRows_height (img : Image) (c a b : ℕ) (color : Color) :
    (paintRows img c a b color).height = img.height := rowsGo_height c color _ a img

theorem paintColumn_pix_eq (img : Image) (c bottom top ih : ℕ) (fg bg : Color)
    (y : ℕ) (hy : y < ih) :
    (paintColumn img c bottom top ih fg bg).pix c y =
      if bottom ≤ y ∧ y < top then fg else bg := by
  unfold paintColumn
  rw [paintRows_pix, paintRows_pix, paintRows_pix]
  split_ifs <;> first | rfl | omega

theorem paintColumn_pix_ne (img : Image) (c bottom top ih : ℕ) (fg bg : Color)
    (x y : ℕ) (hx : x ≠ c) :
    (paintColumn img c bottom top ih fg bg).pix x y = img.pix x y := by
  unfold paintColumn
  rw [paintRows_pix, paintRows_pix, paintRows_pix]
  split_ifs <;> first | rfl | omega

theorem paintColumn_width (img : Image) (c bottom top ih : ℕ) (fg bg : Color) :
    (paintColumn img c bottom top ih fg bg).width = img.width := by
  unfold paintColumn
  rw [paintRows_width, paintRows_width, paintRows_width]

theorem paintColumn_height (img : Image) (c bottom top ih : ℕ) (fg bg : Color) :
    (paintColumn img c bottom top ih fg bg).height = img.height := by
  unfold paintColumn
  rw [paintRows_height, paintRows_height, paintRows_height]

theorem paintStep_pix_eq (wave : Wave) (spp ih : ℕ) (smin smax : ℤ) (fg bg : Color)
    (im : Image) (c y : ℕ) (hy : y < ih) :
    (paintStep wave spp ih smin smax fg bg im c).pix c y =
      columnColor wave spp ih smin smax fg bg c y := by
  unfold paintStep columnColor
  exact paintColumn_pix_eq _ _ _ _ _ _ _ _ hy

theorem paintStep_pix_ne (wave : Wave) (spp ih : ℕ) (smin smax : ℤ) (fg bg : Color)
    (im : Image) (c x y : ℕ) (hx : x ≠ c) :
    (paintStep wave spp ih smin smax fg bg im c).pix x y = im.pix x y := by
  unfold paintStep
  exact paintColumn_pix_ne _ _ _ _ _ _ _ _ _ hx

theorem paintStep_width (wave : Wave) (spp ih : ℕ) (smin smax : ℤ) (fg bg : Color)
    (im : Image) (column : ℕ) :
    (paintStep wave spp ih smin smax fg bg im column).width = im.width := by
  unfold paintStep
  rw [paintColumn_width]

theorem paintStep_height (wave : Wave) (spp ih : ℕ) (smin smax : ℤ) (fg bg : Color)
    (im : Image) (column : ℕ) :
    (paintStep wave spp ih smin smax fg bg im column).height = im.height := by
  unfold paintStep
  rw [paintColumn_height]

theorem paint_fold_pix (wave : Wave) (spp ih : ℕ) (smin smax : ℤ) (fg bg : Color)
    (iw : ℕ) :
    ∀ (n x y : ℕ), y < ih →
      (((List.range n).foldl (paintStep wave spp ih smin smax fg bg)
          (Image.new iw ih)).pix x y) =
        if x < n then columnColor wave spp ih smin smax fg bg x y else (0, 0, 0) := by
  intro n
  induction n with
  | zero =>
    intro x y hy
    simp only [List.range_zero, List.foldl_nil]
    rw [if_neg (by omega)]
    rfl
  | succ n ihn =>
    intro x y hy
    rw [List.range_succ, List.foldl_append, List.foldl_cons, List.foldl_nil]
    by_cases hx : x = n
    · subst hx
      rw [paintStep_pix_eq _ _ _ _ _ _ _ _ _ _ hy, if_pos (Nat.lt_succ_self _)]
    · rw [paintStep_pix_ne _ _ _ _ _ _ _ _ _ _ _ hx, ihn x y hy]
      by_cases h2 : x < n
      · rw [if_pos h2, if_pos (by omega)]
      · rw [if_neg h2, if_neg (by omega)]

end ImageLemmas

section RendererLemmas

theorem satCast_le (n : ℕ) : satCast n ≤ n := min_le_left _ _

theorem satCast_eq_of_lt {n : ℕ} (h : n < 2 ^ 32) : satCast n = n := by
  unfold satCast
  have h32 : (2 : ℕ) ^ 32 = 4294967296 := by norm_num
  omega

theorem frameCount_le_sampleCount (wave : Wave) : wave.frameCount ≤ wave.sampleCount :=
  Nat.div_le_self _ _

theorem renderWidth_le_sampleCount (width : ℕ) (wave : Wave) :
    renderWidth width wave ≤ wave.sampleCount := by
  unfold renderWidth
  split_ifs with h
  · exact le_trans (satCast_le _) (frameCount_le_sampleCount wave)
  · exact le_trans (satCast_le _) (le_trans (not_lt.mp h) (frameCount_le_sampleCount wave))

theorem renderWidth_pos (width : ℕ) (wave : Wave) (hw : 1 ≤ width)
    (hfc : 1 ≤ wave.frameCount) : 1 ≤ renderWidth width wave := by
  unfold renderWidth satCast
  have h32 : (2 : ℕ) ^ 32 = 4294967296 := by norm_num
  split_ifs <;> omega

theorem sppOf_pos (width : ℕ) (wave : Wave) (h1 : 1 ≤ renderWidth width wave) :
    1 ≤ sppOf width wave :=
  Nat.div_pos (renderWidth_le_sampleCount width wave) h1

theorem render_raw_eq_some (width height : ℕ) (smin smax : ℤ) (wave : Wave)
    (fg bg : Color) (hch : wave.channel_count ≠ 0)
    (hdvd : wave.data.length % wave.channel_count = 0)
    (hiw : renderWidth width wave ≠ 0) (hspp : sppOf width wave ≠ 0) :
    render_raw width height smin smax wave fg bg =
      some ((List.range (renderWidth width wave)).foldl
        (paintStep wave (sppOf width wave) (satCast height) smin smax fg bg)
        (Image.new (renderWidth width wave) (satCast height))) := by
  unfold render_raw
  rw [if_neg (by push_neg; exact ⟨hch, hdvd⟩), if_neg hiw, if_neg hspp]

theorem render_raw_spec (width height : ℕ) (smin smax : ℤ) (wave : Wave)
    (fg bg : Color) (img : Image)
    (hr : render_raw width height smin smax wave fg bg = some img) :
    img.width = renderWidth width wave ∧ img.height = satCast height ∧
      renderWidth width wave ≠ 0 ∧ sppOf width wave ≠ 0 ∧
      ∀ x y, x < img.width → y < img.height →
        img.pix x y =
          columnColor wave (sppOf width wave) (satCast height) smin smax fg bg x y := by
  unfold render_raw at hr
  split_ifs at hr with h1 h2 h3
  · injection hr with he
    subst he
    have hwidth : ((List.range (renderWidth width wave)).foldl
        (paintStep wave (sppOf width wave) (satCast height) smin smax fg bg)
        (Image.new (renderWidth width wave) (satCast height))).width =
          renderWidth width wave :=
      foldl_width _ (paintStep_width wave _ _ smin smax fg bg) _ _
    have hheight : ((List.range (renderWidth width wave)).foldl
        (paintStep wave (sppOf width wave) (satCast height) smin smax fg bg)
        (Image.new (renderWidth width wave) (satCast height))).height =
          satCast height :=
      foldl_height _ (paintStep_height wave _ _ smin smax fg bg) _ _
    refine ⟨hwidth, hheight, h2, h3, ?_⟩
    intro x y hx hy
    rw [hwidth] at hx
    rw [hheight] at hy
    rw [paint_fold_pix wave _ _ smin smax fg bg _ _ x y hy, if_pos hx]

end RendererLemmas

section UpscaleLemmas

theorem upscale_fold_pix (img : Image) (nw row : ℕ) :
    ∀ (n : ℕ) (acc : Image) (x y : ℕ),
      (((List.range n).foldl
        (fun im2 column =>
          im2.putPixel column row (img.pix (column * img.width % 2 ^ 32 / nw) row))
        acc).pix x y) =
      if x < n ∧ y = row then img.pix (x * img.width % 2 ^ 32 / nw) row
      else acc.pix x y := by
  intro n
  induction n with
  | zero =>
    intro acc x y
    simp only [List.range_zero, List.foldl_nil]
    rw [if_neg (by omega)]
  | succ n ihn =>
    intro acc x y
    rw [List.range_succ, List.foldl_append, List.foldl_cons, List.foldl_nil,
      putPixel_pix, ihn]
    by_cases hx : x = n
    · subst hx
      by_cases hy : y = row
      · subst hy
        rw [if_pos ⟨rfl, rfl⟩, if_pos ⟨Nat.lt_succ_self _, rfl⟩]
      · rw [if_neg (by tauto), if_neg (by tauto), if_neg (by tauto)]
    · rw [if_neg (by tauto)]
      by_cases h2 : x < n ∧ y = row
      · rw [if_pos h2, if_pos ⟨by omega, h2.2⟩]
      · rw [if_neg h2, if_neg (by rintro ⟨ha, hb⟩; exact h2 ⟨by omega, hb⟩)]

theorem upscaleRow_pix (img : Image) (nw row : ℕ) (acc : Image) (x y : ℕ) :
    (upscaleRow img nw row acc).pix x y =
      if x < nw ∧ y = row then img.pix (x * img.width % 2 ^ 32 / nw) row
      else acc.pix x y := by
  unfold upscaleRow
  rw [upscale_fold_pix]

theorem upscaleRow_width (img : Image) (nw row : ℕ) (acc : Image) :
    (upscaleRow img nw row acc).width = acc.width := by
  unfold upscaleRow
  apply foldl_width
  intro im a
  rfl

theorem upscaleRow_height (img : Image) (nw row : ℕ) (acc : Image) :
    (upscaleRow img nw row acc).height = acc.height := by
  unfold upscaleRow
  apply foldl_height
  intro im a
  rfl

theorem upscale_image_width (img : Image) (nw : ℕ) : (upscale_image img nw).width = nw := by
  unfold upscale_image
  have h := foldl_width (fun acc row => upscaleRow img nw row acc)
    (fun im a => upscaleRow_width img nw a im) (List.range img.height)
    (Image.new nw img.height)
  rw [h]
  rfl

theorem upscale_image_height (img : Image) (nw : ℕ) :
    (upscale_image img nw).height = img.height := by
  unfold upscale_image
  have h := foldl_height (fun acc row => upscaleRow img nw row acc)
    (fun im a => upscaleRow_height img nw a im) (List.range img.height)
    (Image.new nw img.height)
  rw [h]
  rfl

theorem upscale_outer_pix (img : Image) (nw : ℕ) :
    ∀ (m : ℕ) (x y : ℕ),
      (((List.range m).foldl (fun acc row => upscaleRow img nw row acc)
          (Image.new nw img.height)).pix x y) =
        if x < nw ∧ y < m then img.pix (x * img.width % 2 ^ 32 / nw) y
        else (0, 0, 0) := by
  intro m
  induction m with
  | zero =>
    intro x y
    simp only [List.range_zero, List.foldl_nil]
    rw [if_neg (by omega)]
    rfl
  | succ m ihm =>
    intro x y
    rw [List.range_succ, List.foldl_append, List.foldl_cons, List.foldl_nil,
      upscaleRow_pix, ihm]
    by_cases hy : y = m
    · subst hy
      by_cases hx : x < nw
      · rw [if_pos ⟨hx, rfl⟩, if_pos ⟨hx, Nat.lt_succ_self _⟩]
      · rw [if_neg (by tauto), if_neg (by tauto), if_neg (by tauto)]
    · rw [if_neg (by tauto)]
      by_cases h2 : x < nw ∧ y < m
      · rw [if_pos h2, if_pos ⟨h2.1, by omega⟩]
      · rw [if_neg h2, if_neg (by rintro ⟨ha, hb⟩; exact h2 ⟨ha, by omega⟩)]

theorem upscale_image_pix (img : Image) (nw x y : ℕ) (hx : x < nw)
    (hy : y < img.height) :
    (upscale_image img nw).pix x y = img.pix (x * img.width % 2 ^ 32 / nw) y := by
  unfold upscale_image
  rw [upscale_outer_pix, if_pos ⟨hx, hy⟩]

/-- The source column index `upscale_image` reads from is always in bounds. -/
theorem upscale_src_lt (w nw x : ℕ) (hw : 1 ≤ w) (hx : x < nw) :
    x * w % 2 ^ 32 / nw < w := by
  have h1 : x * w % 2 ^ 32 ≤ x * w := Nat.mod_le _ _
  have h2 : x * w < nw * w := by
    exact Nat.mul_lt_mul_of_lt_of_le hx (le_refl w) (by omega)
  have h3 : x * w % 2 ^ 32 < nw * w := by omega
  exact Nat.div_lt_of_lt_mul (by omega)

end UpscaleLemmas

section WindowLemmas

theorem window_length (data : List ℤ) (sp spp : ℕ) (h : sp + spp ≤ data.length) :
    (window data sp spp).length = spp := by
  unfold window
  rw [List.length_take, List.length_drop]
  omega

theorem foldl_max_all_eq :
    ∀ (l : List ℤ) (a c : ℤ), a = c → (∀ s ∈ l, s = c) → l.foldl max a = c := by
  intro l
  induction l with
  | nil => intro a c ha h; simpa using ha
  | cons b bs ih =>
    intro a c ha h
    rw [List.foldl_cons]
    apply ih
    · have hb : b = c := h b (by simp)
      rw [ha, hb]
      exact max_self c
    · intro s hs
      exact h s (by simp [hs])

theorem foldl_min_all_eq :
    ∀ (l : List ℤ) (a c : ℤ), a = c → (∀ s ∈ l, s = c) → l.foldl min a = c := by
  intro l
  induction l with
  | nil => intro a c ha h; simpa using ha
  | cons b bs ih =>
    intro a c ha h
    rw [List.foldl_cons]
    apply ih
    · have hb : b = c := h b (by simp)
      rw [ha, hb]
      exact min_self c
    · intro s hs
      exact h s (by simp [hs])

theorem listMax_all_eq (l : List ℤ) (c : ℤ) (hne : l ≠ []) (h : ∀ s ∈ l, s = c) :
    (listMax l).getD 0 = c := by
  cases l with
  | nil => exact absurd rfl hne
  | cons a as =>
    simp only [listMax, Option.getD_some]
    exact foldl_max_all_eq as a c (h a (by simp)) (fun s hs => h s (by simp [hs]))

theorem listMin_all_eq (l : List ℤ) (c : ℤ) (hne : l ≠ []) (h : ∀ s ∈ l, s = c) :
    (listMin l).getD 0 = c := by
  cases l with
  | nil => exact absurd rfl hne
  | cons a as =>
    simp only [listMin, Option.getD_some]
    exact foldl_min_all_eq as a c (h a (by simp)) (fun s hs => h s (by simp [hs]))

/-- The sample window of any in-range column stays inside the data buffer. -/
theorem column_window_bound (width : ℕ) (wave : Wave) (c : ℕ)
    (hc : c < renderWidth width wave) :
    c * sppOf width wave + sppOf width wave ≤ wave.data.length := by
  have h1 : sppOf width wave * renderWidth width wave ≤ wave.sampleCount := by
    unfold sppOf
    exact Nat.div_mul_le_self _ _
  have h2 : (c + 1) * sppOf width wave ≤ renderWidth width wave * sppOf width wave :=
    Nat.mul_le_mul_right _ (by omega)
  have h3 : wave.sampleCount = wave.data.length := rfl
  calc c * sppOf width wave + sppOf width wave
      = (c + 1) * sppOf width wave := by ring
    _ ≤ renderWidth width wave * sppOf width wave := h2
    _ = sppOf width wave * renderWidth width wave := by ring
    _ ≤ wave.data.length := by rw [← h3]; exact h1

theorem window_ne_nil (data : List ℤ) (sp spp : ℕ) (hspp : spp ≠ 0)
    (h : sp + spp ≤ data.length) : window data sp spp ≠ [] := by
  intro hnil
  have := window_length data sp spp h
  rw [hnil] at this
  simp at this
  omega

theorem columnMax_const (width : ℕ) (wave : Wave) (c : ℕ) (v : ℤ)
    (hc : c < renderWidth width wave) (hspp : sppOf width wave ≠ 0)
    (h : ∀ s ∈ window wave.data (c * sppOf width wave) (sppOf width wave), s = v) :
    columnMax wave (sppOf width wave) c = v := by
  unfold columnMax
  exact listMax_all_eq _ _
    (window_ne_nil _ _ _ hspp (column_window_bound width wave c hc)) h

theorem columnMin_const (width : ℕ) (wave : Wave) (c : ℕ) (v : ℤ)
    (hc : c < renderWidth width wave) (hspp : sppOf width wave ≠ 0)
    (h : ∀ s ∈ window wave.data (c * sppOf width wave) (sppOf width wave), s = v) :
    columnMin wave (sppOf width wave) c = v := by
  unfold columnMin
  exact listMin_all_eq _ _
    (window_ne_nil _ _ _ hspp (column_window_bound width wave c hc)) h

end WindowLemmas

section PixelComputations

theorem half_le_self_q (ih : ℕ) : ((ih : ℚ) / 2) ≤ (ih : ℚ) := by
  have h : (0 : ℚ) ≤ (ih : ℚ) := Nat.cast_nonneg ih
  linarith

theorem top_pixel_le (ih : ℕ) (smax mx : ℤ) : top_pixel ih smax mx ≤ ih := by
  unfold top_pixel clamp_scale
  have h1 : clamp (scale_to_range (mx : ℚ) 0 (smax : ℚ) ((ih : ℚ) / 2) (ih : ℚ))
      ((ih : ℚ) / 2) (ih : ℚ) ≤ (ih : ℚ) := clamp_le_hi _ _ _ (half_le_self_q ih)
  have h2 := roundq_mono h1
  rw [roundq_natCast ih] at h2
  calc (roundq _).toNat ≤ ((ih : ℤ)).toNat := Int.toNat_le_toNat h2
    _ = ih := Int.toNat_natCast ih

theorem bottom_le_top (ih : ℕ) (smin smax mn mx : ℤ) :
    bottom_pixel ih smin mn ≤ top_pixel ih smax mx := by
  unfold bottom_pixel top_pixel clamp_scale
  have h0 : (0 : ℚ) ≤ (ih : ℚ) / 2 := by positivity
  have h1 : clamp (scale_to_range (mn : ℚ) (smin : ℚ) 0 0 ((ih : ℚ) / 2))
      0 ((ih : ℚ) / 2) ≤ (ih : ℚ) / 2 := clamp_le_hi _ _ _ h0
  have h2 : ((ih : ℚ) / 2) ≤
      clamp (scale_to_range (mx : ℚ) 0 (smax : ℚ) ((ih : ℚ) / 2) (ih : ℚ))
        ((ih : ℚ) / 2) (ih : ℚ) := lo_le_clamp _ _ _ (half_le_self_q ih)
  exact Int.toNat_le_toNat (roundq_mono (le_trans h1 h2))

/-- A window maximum of exactly `0` maps to row `round(h/2) = (h+1)/2`. -/
theorem top_pixel_zero (ih : ℕ) (smax : ℤ) : top_pixel ih smax 0 = (ih + 1) / 2 := by
  unfold top_pixel
  have hscale : scale_to_range ((0 : ℤ) : ℚ) 0 (smax : ℚ) ((ih : ℚ) / 2) (ih : ℚ) =
      (ih : ℚ) / 2 := by
    unfold scale_to_range
    simp
  unfold clamp_scale
  rw [hscale, clamp_eq_of_mem _ _ _ (le_refl _) (half_le_self_q ih), roundq_nat_half]

/-- A window minimum of exactly `0` maps to row `round(h/2) = (h+1)/2`. -/
theorem bottom_pixel_zero (ih : ℕ) (smin : ℤ) (h : smin ≠ 0) :
    bottom_pixel ih smin 0 = (ih + 1) / 2 := by
  unfold bottom_pixel
  have hs : ((0 : ℚ) - (smin : ℚ)) ≠ 0 := by
    rw [zero_sub, neg_ne_zero]
    exact_mod_cast h
  have hscale : scale_to_range ((0 : ℤ) : ℚ) (smin : ℚ) 0 0 ((ih : ℚ) / 2) =
      (ih : ℚ) / 2 := by
    unfold scale_to_range
    rw [Int.cast_zero, div_self hs]
    ring
  have h0 : (0 : ℚ) ≤ (ih : ℚ) / 2 := by positivity
  unfold clamp_scale
  rw [hscale, clamp_eq_of_mem _ _ _ h0 (le_refl _), roundq_nat_half]

/-- A window maximum equal to the domain maximum maps to the bottom row `h`. -/
theorem top_pixel_max (ih : ℕ) (smax : ℤ) (h : smax ≠ 0) :
    top_pixel ih smax smax = ih := by
  unfold top_pixel
  have hs : ((smax : ℚ)) ≠ 0 := by exact_mod_cast h
  have hscale : scale_to_range (smax : ℚ) 0 (smax : ℚ) ((ih : ℚ) / 2) (ih : ℚ) =
      (ih : ℚ) := by
    unfold scale_to_range
    rw [sub_zero, div_self hs]
    ring
  unfold clamp_scale
  rw [hscale, clamp_eq_of_mem _ _ _ (half_le_self_q ih) (le_refl _), roundq_natCast,
    Int.toNat_natCast]

/-- A window minimum equal to the (positive) domain maximum saturates the
lower clamp at `h/2` and rounds to `(h+1)/2`. -/
theorem bottom_pixel_max (ih : ℕ) (smin smax : ℤ) (hmin : smin < 0) (hmax : 0 ≤ smax) :
    bottom_pixel ih smin smax = (ih + 1) / 2 := by
  unfold bottom_pixel
  have hpos : (0 : ℚ) < (0 : ℚ) - (smin : ℚ) := by
    rw [zero_sub, neg_pos]
    exact_mod_cast hmin
  have hratio : (1 : ℚ) ≤ ((smax : ℚ) - (smin : ℚ)) / ((0 : ℚ) - (smin : ℚ)) := by
    rw [le_div_iff₀ hpos, one_mul]
    have : (0 : ℚ) ≤ (smax : ℚ) := by exact_mod_cast hmax
    linarith
  have h0 : (0 : ℚ) ≤ (ih : ℚ) / 2 := by positivity
  have hv : (ih : ℚ) / 2 ≤ scale_to_range (smax : ℚ) (smin : ℚ) 0 0 ((ih : ℚ) / 2) := by
    unfold scale_to_range
    have := mul_le_mul_of_nonneg_right hratio (by linarith : (0 : ℚ) ≤ (ih : ℚ) / 2 - 0)
    rw [one_mul] at this
    linarith
  unfold clamp_scale
  rw [clamp_eq_hi _ _ _ (by linarith) hv, roundq_nat_half]

end PixelComputations

/-- C1 (code bug): the renderer performs no degenerate-geometry validation.
With requested width 0 the execution reaches the division
`samples_per_pixel = sample_count / image.width()` with divisor 0 and panics
(modelled as `none`); with requested height 0 the renderer does not reject the
request either — it silently renders and returns a 0-height image. -/
theorem draw_waveform_no_validation :
    (draw_waveform 0 1 (-32768) 32767 ⟨[0], 1⟩ (0, 0, 0) (255, 255, 255)).isNone = true ∧
      (draw_waveform 1 0 (-32768) 32767 ⟨[0], 1⟩ (0, 0, 0) (255, 255, 255)).isSome = true := by
  constructor
  · rfl
  · rfl

/-- C3 counterexample: upscaling a 65536-pixel-wide source to 131072 pixels
makes the `u32` product `oc * source.width` wrap at output column 65536, so the
pixel is copied from source column 0 instead of column
`floor(65536 * 65536 / 131072) = 32768`, whose color differs. -/
theorem upscale_image_overflow_cex :
    (upscale_image c3src 131072).pix 65536 0 = c3src.pix 0 0 ∧
      c3src.pix 0 0 ≠ c3src.pix (65536 * 65536 / 131072) 0 := by
  constructor
  · rw [upscale_image_pix c3src 131072 65536 0 (by norm_num) (by decide)]
    norm_num [c3src]
  · decide

/-- C3 (amended): `upscale_image` returns a new image of dimensions
`(new_width, source.height)`, and whenever the `u32` product
`oc * source.width` does not overflow (`< 2^32`), output column `oc` copies the
whole vertical source column `floor(oc * source.width / new_width)` unchanged;
on overflow the product wraps modulo `2^32` and a smaller source column is
selected instead. -/
theorem upscale_image_spec (img : Image) (nw : ℕ) (hw : 1 ≤ img.width)
    (hnw : img.width ≤ nw) :
    (upscale_image img nw).width = nw ∧
      (upscale_image img nw).height = img.height ∧
      ∀ oc r, oc < nw → r < img.height → oc * img.width < 2 ^ 32 →
        (upscale_image img nw).pix oc r = img.pix (oc * img.width / nw) r := by
  refine ⟨upscale_image_width img nw, upscale_image_height img nw, ?_⟩
  intro oc r hoc hr hov
  rw [upscale_image_pix img nw oc r hoc hr, Nat.mod_eq_of_lt hov]

/-- C3 witness: the spec's concrete example, a 2-pixel-wide source upscaled to
4 pixels; output column 3 copies source column `floor(3*2/4) = 1`. -/
theorem upscale_image_spec_witness :
    (upscale_image c3small 4).width = 4 ∧
      (upscale_image c3small 4).pix 3 0 = c3small.pix (3 * c3small.width / 4) 0 := by
  have h := upscale_image_spec c3small 4 (by decide) (by decide)
  exact ⟨h.1, h.2.2 3 0 (by decide) (by decide) (by decide)⟩

/-- C8 counterexample: a 7-character string that is not a well-formed
'#RRGGBB' color (its first character is '0', not '#') is parsed successfully
to a color instead of producing an error. -/
theorem parseHexColor_accepts_without_hash :
    parseHexColor ['0', 'a', 'a', 'b', 'b', 'c', 'c'] = HexResult.ok (170, 187, 204) ∧
      ('0' : Char) ≠ '#' := by
  constructor
  · rfl
  · decide

/-- C8 (amended): `parse_hex_color` never inspects the first character, so the
leading '#' is not validated: any two strings differing only in their first
character parse identically, and any 7-character string whose characters at
positions 1-6 are hexadecimal digits yields the corresponding RGB triple.
Strings shorter than 7 characters are not all returned errors either: they
either panic on byte slicing or return a parse error. -/
theorem parseHexColor_spec :
    (∀ (c0 c0' : Char) (t : List Char),
        parseHexColor (c0 :: t) = parseHexColor (c0' :: t)) ∧
      (∀ (c0 a b c d e f : Char) (va vb vc vd ve vf : ℕ),
        hexDigitVal a = some va → hexDigitVal b = some vb →
        hexDigitVal c = some vc → hexDigitVal d = some vd →
        hexDigitVal e = some ve → hexDigitVal f = some vf →
        parseHexColor [c0, a, b, c, d, e, f] =
          HexResult.ok (16 * va + vb, 16 * vc + vd, 16 * ve + vf)) ∧
      (∀ s : List Char, s.length < 7 →
        parseHexColor s = HexResult.oob ∨ parseHexColor s = HexResult.err) := by
  refine ⟨fun c0 c0' t => rfl, ?_, ?_⟩
  · intro c0 a b c d e f va vb vc vd ve vf h1 h2 h3 h4 h5 h6
    simp [parseHexColor, parseHexBody, hexByte, h1, h2, h3, h4, h5, h6]
  · intro s hs
    rcases s with _ | ⟨c0, hex⟩
    · left; rfl
    simp only [parseHexColor]
    simp only [List.length_cons] at hs
    rcases hex with _ | ⟨c1, hex1⟩
    · left; rfl
    rcases hex1 with _ | ⟨c2, hex2⟩
    · left; rfl
    cases hb : hexByte c1 c2 with
    | none => right; simp [parseHexBody, hb]
    | some r =>
      rcases hex2 with _ | ⟨c3, hex3⟩
      · left; simp [parseHexBody, hb]
      rcases hex3 with _ | ⟨c4, hex4⟩
      · left; simp [parseHexBody, hb]
      cases hg : hexByte c3 c4 with
      | none => right; simp [parseHexBody, hb, hg]
      | some g =>
        rcases hex4 with _ | ⟨c5, hex5⟩
        · left; simp [parseHexBody, hb, hg]
        rcases hex5 with _ | ⟨c6, hex6⟩
        · left; simp [parseHexBody, hb, hg]
        simp only [List.length_cons] at hs
        omega

/-- C8 witness: a string with a non-'#' first character parses to the digits
at positions 1-6, and a short string never yields a color. -/
theorem parseHexColor_spec_witness :
    parseHexColor ['Z', '0', '1', '2', '3', '4', '5'] = HexResult.ok (1, 35, 69) ∧
      (parseHexColor ['#', 'a'] = HexResult.oob ∨
        parseHexColor ['#', 'a'] = HexResult.err) := by
  constructor
  · have h := parseHexColor_spec.2.1 'Z' '0' '1' '2' '3' '4' '5' 0 1 2 3 4 5
      rfl rfl rfl rfl rfl rfl
    simpa using h
  · exact parseHexColor_spec.2.2 ['#', 'a'] (by decide)

/-- C10: `parse_hex_color` accepts every string of length greater than 7 whose
characters at positions 1 through 6 are hexadecimal digits, silently ignoring
all characters from position 7 onward. -/
theorem parseHexColor_ignores_tail
    (c0 a b c d e f : Char) (rest : List Char) (va vb vc vd ve vf : ℕ)
    (h1 : hexDigitVal a = some va) (h2 : hexDigitVal b = some vb)
    (h3 : hexDigitVal c = some vc) (h4 : hexDigitVal d = some vd)
    (h5 : hexDigitVal e = some ve) (h6 : hexDigitVal f = some vf) :
    parseHexColor (c0 :: a :: b :: c :: d :: e :: f :: rest) =
      HexResult.ok (16 * va + vb, 16 * vc + vd, 16 * ve + vf) := by
  simp [parseHexColor, parseHexBody, hexByte, h1, h2, h3, h4, h5, h6]

/-- C10 witness: '#aabbccZZZZ' parses successfully to the color aabbcc. -/
theorem parseHexColor_ignores_tail_witness :
    parseHexColor ['#', 'a', 'a', 'b', 'b', 'c', 'c', 'Z', 'Z', 'Z', 'Z'] =
      HexResult.ok (170, 187, 204) := by
  have h := parseHexColor_ignores_tail '#' 'a' 'a' 'b' 'b' 'c' 'c' ['Z', 'Z', 'Z', 'Z']
    10 10 11 11 12 12 rfl rfl rfl rfl rfl rfl
  simpa using h

section RendererTotality

theorem render_raw_total (width height : ℕ) (smin smax : ℤ) (wave : Wave)
    (fg bg : Color) (hw : 1 ≤ width) (hch : wave.channel_count ≠ 0)
    (hdvd : wave.data.length % wave.channel_count = 0) (hfc : 1 ≤ wave.frameCount) :
    ∃ raw, render_raw width height smin smax wave fg bg = some raw := by
  have hiw : renderWidth width wave ≠ 0 := by
    have := renderWidth_pos width wave hw hfc
    omega
  have hspp : sppOf width wave ≠ 0 := by
    have := sppOf_pos width wave (renderWidth_pos width wave hw hfc)
    omega
  exact ⟨_, render_raw_eq_some width height smin smax wave fg bg hch hdvd hiw hspp⟩

theorem draw_waveform_eq (width height : ℕ) (smin smax : ℤ) (wave : Wave)
    (fg bg : Color) (raw : Image)
    (hr : render_raw width height smin smax wave fg bg = some raw) :
    draw_waveform width height smin smax wave fg bg =
      some (if wave.frameCount < width then upscale_image raw (width % 2 ^ 32)
        else raw) := by
  unfold draw_waveform
  rw [hr]
  rfl

theorem render_raw_fg_or_bg (width height : ℕ) (smin smax : ℤ) (wave : Wave)
    (fg bg : Color) (img : Image)
    (hr : render_raw width height smin smax wave fg bg = some img) :
    ∀ x y, x < img.width → y < img.height →
      (img.pix x y = fg ∨ img.pix x y = bg) := by
  intro x y hx hy
  have hspec := render_raw_spec width height smin smax wave fg bg img hr
  rw [hspec.2.2.2.2 x y hx hy]
  unfold columnColor
  split_ifs
  · left; rfl
  · right; rfl

theorem renderWidth_eq_small (width : ℕ) (wave : Wave) (hw32 : width < 2 ^ 32)
    (hsmall : wave.frameCount < width) : renderWidth width wave = wave.frameCount := by
  unfold renderWidth
  rw [if_pos hsmall]
  exact satCast_eq_of_lt (lt_trans hsmall hw32)

theorem renderWidth_eq_big (width : ℕ) (wave : Wave) (hw32 : width < 2 ^ 32)
    (hbig : ¬ wave.frameCount < width) : renderWidth width wave = width := by
  unfold renderWidth
  rw [if_neg hbig]
  exact satCast_eq_of_lt hw32

end RendererTotality

/-- C2: under the renderer's preconditions (positive representable target
dimensions, a well-formed non-empty wave), the returned image has dimensions
exactly `(width, height)`; when `frame_count < width` the pre-upscale
intermediate image has dimensions `(frame_count, height)`, and when
`frame_count ≥ width` the intermediate is returned unchanged. -/
theorem draw_waveform_dims (width height : ℕ) (smin smax : ℤ) (wave : Wave)
    (fg bg : Color)
    (hw : 1 ≤ width) (hh : 1 ≤ height) (hw32 : width < 2 ^ 32) (hh32 : height < 2 ^ 32)
    (hch : wave.channel_count ≠ 0) (hdvd : wave.data.length % wave.channel_count = 0)
    (hfc : 1 ≤ wave.frameCount) :
    ∃ raw img, render_raw width height smin smax wave fg bg = some raw ∧
      draw_waveform width height smin smax wave fg bg = some img ∧
      img.width = width ∧ img.height = height ∧
      (wave.frameCount < width → raw.width = wave.frameCount ∧ raw.height = height) ∧
      (width ≤ wave.frameCount → img = raw) := by
  obtain ⟨raw, hr⟩ := render_raw_total width height smin smax wave fg bg hw hch hdvd hfc
  have hspec := render_raw_spec width height smin smax wave fg bg raw hr
  have hsat : satCast height = height := satCast_eq_of_lt hh32
  have hdraw := draw_waveform_eq width height smin smax wave fg bg raw hr
  by_cases hsmall : wave.frameCount < width
  · rw [if_pos hsmall] at hdraw
    have hmod : width % 2 ^ 32 = width := Nat.mod_eq_of_lt hw32
    refine ⟨raw, _, hr, hdraw, ?_, ?_, ?_, ?_⟩
    · exact (upscale_image_width _ _).trans hmod
    · exact (upscale_image_height _ _).trans (hspec.2.1.trans hsat)
    · intro _
      exact ⟨hspec.1.trans (renderWidth_eq_small width wave hw32 hsmall),
        hspec.2.1.trans hsat⟩
    · intro hge
      omega
  · rw [if_neg hsmall] at hdraw
    refine ⟨raw, raw, hr, hdraw,
      hspec.1.trans (renderWidth_eq_big width wave hw32 hsmall),
      hspec.2.1.trans hsat, ?_, fun _ => rfl⟩
    intro hlt
    exact absurd hlt hsmall

/-- C2 witness: a 2-frame mono wave rendered at 4×2 goes through the small-wave
path; the intermediate is 2×2 and the final image is 4×2. -/
theorem draw_waveform_dims_witness :
    (render_raw 4 2 (-32768) 32767 ⟨[1, 2], 1⟩ (0, 0, 0) (9, 9, 9)).map
        (fun im => (im.width, im.height)) = some (2, 2) ∧
      (draw_waveform 4 2 (-32768) 32767 ⟨[1, 2], 1⟩ (0, 0, 0) (9, 9, 9)).map
        (fun im => (im.width, im.height)) = some (4, 2) := by
  obtain ⟨raw, img, hr, hdraw, hiw, hih, hsmall, -⟩ :=
    draw_waveform_dims 4 2 (-32768) 32767 ⟨[1, 2], 1⟩ (0, 0, 0) (9, 9, 9)
      (by norm_num) (by norm_num) (by norm_num) (by norm_num)
      (by decide) (by decide) (by decide)
  have hs := hsmall (by decide)
  have hfc2 : Wave.frameCount ⟨[1, 2], 1⟩ = 2 := rfl
  constructor
  · rw [hr]
    simp only [Option.map_some']
    rw [hs.1, hfc2, hs.2]
  · rw [hdraw]
    simp only [Option.map_some']
    rw [hiw, hih]

/-- C9: for every column, the computed rows satisfy
`bottom_pixel ≤ top_pixel ≤ height`, so the three painted ranges
`[0, bottom)`, `[bottom, top)`, `[top, height)` cover every row of the column;
consequently every pixel of the returned image is the foreground or the
background color — none is left at the construction default. -/
theorem draw_waveform_pixels_partition (width height : ℕ) (smin smax : ℤ)
    (wave : Wave) (fg bg : Color)
    (hw : 1 ≤ width) (hh : 1 ≤ height) (hw32 : width < 2 ^ 32) (hh32 : height < 2 ^ 32)
    (hch : wave.channel_count ≠ 0) (hdvd : wave.data.length % wave.channel_count = 0)
    (hfc : 1 ≤ wave.frameCount) (hmin : smin < 0) (hmax : 0 < smax) :
    (∀ mn mx : ℤ, bottom_pixel height smin mn ≤ top_pixel height smax mx ∧
        top_pixel height smax mx ≤ height) ∧
      ∃ img, draw_waveform width height smin smax wave fg bg = some img ∧
        ∀ x y, x < img.width → y < img.height →
          (img.pix x y = fg ∨ img.pix x y = bg) := by
  constructor
  · intro mn mx
    exact ⟨bottom_le_top height smin smax mn mx, top_pixel_le height smax mx⟩
  obtain ⟨raw, hr⟩ := render_raw_total width height smin smax wave fg bg hw hch hdvd hfc
  have hspec := render_raw_spec width height smin smax wave fg bg raw hr
  have hpix := render_raw_fg_or_bg width height smin smax wave fg bg raw hr
  have hdraw := draw_waveform_eq width height smin smax wave fg bg raw hr
  by_cases hsmall : wave.frameCount < width
  · rw [if_pos hsmall] at hdraw
    refine ⟨upscale_image raw (width % 2 ^ 32), hdraw, ?_⟩
    intro x y hx hy
    rw [upscale_image_width] at hx
    rw [upscale_image_height] at hy
    rw [upscale_image_pix raw _ x y hx hy]
    apply hpix
    · have hrw : 1 ≤ raw.width := by
        rw [hspec.1]
        exact renderWidth_pos width wave hw hfc
      exact upscale_src_lt raw.width (width % 2 ^ 32) x hrw hx
    · exact hy
  · rw [if_neg hsmall] at hdraw
    exact ⟨raw, hdraw, hpix⟩

/-- C9 witness: a concrete 2×2 render in which every pixel is one of the two
colors, and concrete row bounds. -/
theorem draw_waveform_pixels_partition_witness :
    (bottom_pixel 2 (-32768) 0 ≤ top_pixel 2 32767 32767 ∧
        top_pixel 2 32767 32767 ≤ 2) ∧
      (draw_waveform 2 2 (-32768) 32767 ⟨[1, 2, 3, 4], 1⟩ (1, 2, 3) (4, 5, 6)).isSome =
        true := by
  have h := draw_waveform_pixels_partition 2 2 (-32768) 32767 ⟨[1, 2, 3, 4], 1⟩
    (1, 2, 3) (4, 5, 6) (by norm_num) (by norm_num) (by norm_num) (by norm_num)
    (by decide) (by decide) (by decide) (by norm_num) (by norm_num)
  obtain ⟨h1, img, heq, -⟩ := h
  refine ⟨h1 0 32767, ?_⟩
  rw [heq]
  rfl

/-- C5 counterexample: for an all-zero sample window at height 1, the renderer
computes `top_pixel = bottom_pixel = 1`, which differs from `height/2 = 0`:
the common value is `round(height/2) = (height+1)/2`, not `height/2`. -/
theorem silent_column_half_cex :
    top_pixel 1 32767 (columnMax ⟨[0], 1⟩ (sppOf 1 ⟨[0], 1⟩) 0) = 1 ∧
      bottom_pixel 1 (-32768) (columnMin ⟨[0], 1⟩ (sppOf 1 ⟨[0], 1⟩) 0) = 1 ∧
      (1 : ℕ) ≠ 1 / 2 := by
  have hcm : columnMax ⟨[0], 1⟩ (sppOf 1 ⟨[0], 1⟩) 0 = 0 := by decide
  have hcn : columnMin ⟨[0], 1⟩ (sppOf 1 ⟨[0], 1⟩) 0 = 0 := by decide
  refine ⟨?_, ?_, by norm_num⟩
  · rw [hcm, top_pixel_zero]
  · rw [hcn, bottom_pixel_zero 1 (-32768) (by norm_num)]

/-- C5 (amended): for every rendered column whose sample window contains only
zero samples, `top_pixel` and `bottom_pixel` are both `(height+1)/2` (integer
division; this equals `height/2` when `height` is even), the foreground range
is empty, and the entire column is painted with the background color. -/
theorem silent_window_column (width height : ℕ) (smin smax : ℤ) (wave : Wave)
    (fg bg : Color) (img : Image) (c : ℕ)
    (hmin : smin < 0) (hmax : 0 < smax) (hh32 : height < 2 ^ 32)
    (hr : render_raw width height smin smax wave fg bg = some img)
    (hc : c < img.width)
    (hz : ∀ s ∈ window wave.data (c * sppOf width wave) (sppOf width wave), s = 0) :
    bottom_pixel height smin (columnMin wave (sppOf width wave) c) = (height + 1) / 2 ∧
      top_pixel height smax (columnMax wave (sppOf width wave) c) = (height + 1) / 2 ∧
      ∀ y, y < img.height → img.pix c y = bg := by
  have hspec := render_raw_spec width height smin smax wave fg bg img hr
  have hcw : c < renderWidth width wave := by rw [← hspec.1]; exact hc
  have hspp := hspec.2.2.2.1
  have hmaxc := columnMax_const width wave c 0 hcw hspp hz
  have hminc := columnMin_const width wave c 0 hcw hspp hz
  have hsat : satCast height = height := satCast_eq_of_lt hh32
  refine ⟨?_, ?_, ?_⟩
  · rw [hminc]
    exact bottom_pixel_zero height smin (by omega)
  · rw [hmaxc]
    exact top_pixel_zero height smax
  · intro y hy
    rw [hspec.2.2.2.2 c y hc hy]
    unfold columnColor
    rw [hsat, hmaxc, hminc, bottom_pixel_zero height smin (by omega),
      top_pixel_zero height smax]
    rw [if_neg (by omega)]

/-- C5 witness: a silent mono wave rendered at 1×2; both computed rows equal 1
and the whole column is background. -/
theorem silent_window_column_witness :
    bottom_pixel 2 (-32768) (columnMin ⟨[0], 1⟩ (sppOf 1 ⟨[0], 1⟩) 0) = 1 ∧
      c5img.pix 0 1 = (255, 255, 255) := by
  have hr : render_raw 1 2 (-32768) 32767 ⟨[0], 1⟩ (0, 0, 0) (255, 255, 255) =
      some c5img := rfl
  have hspec := render_raw_spec 1 2 (-32768) 32767 ⟨[0], 1⟩ (0, 0, 0)
    (255, 255, 255) c5img hr
  have hc : (0 : ℕ) < c5img.width := by
    rw [hspec.1]
    decide
  have hy : (1 : ℕ) < c5img.height := by
    rw [hspec.2.1]
    decide
  have h := silent_window_column 1 2 (-32768) 32767 ⟨[0], 1⟩ (0, 0, 0)
    (255, 255, 255) c5img 0 (by norm_num) (by norm_num) (by norm_num) hr
    hc (by decide)
  have h1 := h.1
  exact ⟨by omega, h.2.2 1 hy⟩

/-- C6 counterexample: at height 1 a full-scale column has
`top_pixel = 1 = height` but `bottom_pixel = 1` as well, so the painted
foreground band `[bottom, top)` is empty instead of the claimed
`[height/2, height) = [0, 1)`: the rendered pixel is the background color. -/
theorem fullscale_column_cex :
    render_raw 1 1 (-32768) 32767 ⟨[32767], 1⟩ (0, 0, 0) (255, 255, 255) =
        some c6cexImg ∧
      c6cexImg.pix 0 0 = (255, 255, 255) ∧ ((255, 255, 255) : Color) ≠ (0, 0, 0) := by
  have hr : render_raw 1 1 (-32768) 32767 ⟨[32767], 1⟩ (0, 0, 0) (255, 255, 255) =
      some c6cexImg := rfl
  have hspec := render_raw_spec 1 1 (-32768) 32767 ⟨[32767], 1⟩ (0, 0, 0)
    (255, 255, 255) c6cexImg hr
  have hc : (0 : ℕ) < c6cexImg.width := by
    rw [hspec.1]
    decide
  have hy : (0 : ℕ) < c6cexImg.height := by
    rw [hspec.2.1]
    decide
  refine ⟨hr, ?_, by decide⟩
  rw [hspec.2.2.2.2 0 0 hc hy]
  unfold columnColor
  have hcw : (0 : ℕ) < renderWidth 1 ⟨[32767], 1⟩ := by decide
  have hspp : sppOf 1 ⟨[32767], 1⟩ ≠ 0 := by decide
  have hmaxc := columnMax_const 1 ⟨[32767], 1⟩ 0 32767 hcw hspp (by decide)
  have hminc := columnMin_const 1 ⟨[32767], 1⟩ 0 32767 hcw hspp (by decide)
  have hsat : satCast 1 = 1 := by decide
  rw [hsat, hmaxc, hminc, bottom_pixel_max 1 (-32768) 32767 (by norm_num) (by norm_num),
    top_pixel_max 1 32767 (by norm_num)]
  rw [if_neg (by omega)]

/-- C6 (amended): for every rendered column whose sample window consists
entirely of samples equal to the domain maximum, `top_pixel = height` and the
foreground band spans exactly the rows `[(height+1)/2, height)` (integer
division; `[height/2, height)` when `height` is even). -/
theorem fullscale_window_column (width height : ℕ) (smin smax : ℤ) (wave : Wave)
    (fg bg : Color) (img : Image) (c : ℕ)
    (hmin : smin < 0) (hmax : 0 < smax) (hh32 : height < 2 ^ 32)
    (hr : render_raw width height smin smax wave fg bg = some img)
    (hc : c < img.width)
    (hs : ∀ s ∈ window wave.data (c * sppOf width wave) (sppOf width wave), s = smax) :
    top_pixel height smax (columnMax wave (sppOf width wave) c) = height ∧
      bottom_pixel height smin (columnMin wave (sppOf width wave) c) = (height + 1) / 2 ∧
      ∀ y, y < img.height →
        img.pix c y = (if (height + 1) / 2 ≤ y then fg else bg) := by
  have hspec := render_raw_spec width height smin smax wave fg bg img hr
  have hcw : c < renderWidth width wave := by rw [← hspec.1]; exact hc
  have hspp := hspec.2.2.2.1
  have hmaxc := columnMax_const width wave c smax hcw hspp hs
  have hminc := columnMin_const width wave c smax hcw hspp hs
  have hsat : satCast height = height := satCast_eq_of_lt hh32
  refine ⟨?_, ?_, ?_⟩
  · rw [hmaxc]
    exact top_pixel_max height smax (by omega)
  · rw [hminc]
    exact bottom_pixel_max height smin smax hmin (le_of_lt hmax)
  · intro y hy
    have hyh : y < height := by
      rw [hspec.2.1, hsat] at hy
      exact hy
    rw [hspec.2.2.2.2 c y hc hy]
    unfold columnColor
    rw [hsat, hmaxc, hminc, top_pixel_max height smax (by omega),
      bottom_pixel_max height smin smax hmin (le_of_lt hmax)]
    split_ifs <;> first | rfl | omega

/-- C6 witness: a full-scale mono wave rendered at 1×2; the top row (row 0) is
background and the bottom row (row 1) is the foreground band `[1, 2)`. -/
theorem fullscale_window_column_witness :
    top_pixel 2 32767 (columnMax ⟨[32767], 1⟩ (sppOf 1 ⟨[32767], 1⟩) 0) = 2 ∧
      c6img.pix 0 0 = (255, 255, 255) ∧ c6img.pix 0 1 = (0, 0, 0) := by
  have hr : render_raw 1 2 (-32768) 32767 ⟨[32767], 1⟩ (0, 0, 0) (255, 255, 255) =
      some c6img := rfl
  have hspec := render_raw_spec 1 2 (-32768) 32767 ⟨[32767], 1⟩ (0, 0, 0)
    (255, 255, 255) c6img hr
  have hc : (0 : ℕ) < c6img.width := by
    rw [hspec.1]
    decide
  have hy0 : (0 : ℕ) < c6img.height := by
    rw [hspec.2.1]
    decide
  have hy1 : (1 : ℕ) < c6img.height := by
    rw [hspec.2.1]
    decide
  have h := fullscale_window_column 1 2 (-32768) 32767 ⟨[32767], 1⟩ (0, 0, 0)
    (255, 255, 255) c6img 0 (by norm_num) (by norm_num) (by norm_num) hr
    hc (by decide)
  refine ⟨h.1, ?_, ?_⟩
  · have := h.2.2 0 hy0
    simpa using this
  · have := h.2.2 1 hy1
    simpa using this
